import Mathlib

/-!
Verification of the SOP section-extraction engine (`api/sop_parser.py`,
plus the SOP endpoints of `api/main.py`).

Shallow embedding conventions:
* Python strings are modelled as `List Char` (ASCII fragment; the character
  classes of `re.\s`, `re.\d`, `str.isupper`, `str.lower` are modelled on
  their ASCII behaviour, which covers every string the program manipulates).
* `pdfplumber` decoding and the file-system enumeration are external
  collaborators: they are modelled as explicit parameters
  (`decode : String → Option (List Char)`, a list of documents),
  exactly as the specification's Text Source Adapter describes them.
* The regular expression
  `^(?:Section\s+)?(\d+(?:\.\d+)*)[\.:\s]\s*(.+?)$` (MULTILINE, IGNORECASE)
  used by `parse_sections` is embedded operationally: `matchAt` reproduces
  the backtracking behaviour of the Python `re` engine for this pattern at
  one `^`-position, and `findAll` reproduces `finditer`'s left-to-right,
  non-overlapping scan.
-/

namespace SOP

/-- Python whitespace (`str.strip`, `\s`): space, tab, newline, CR, VT, FF
(ASCII fragment of Python's definition). -/
def pyIsWs (c : Char) : Bool :=
  c == ' ' || c == '\t' || c == '\n' || c == '\r' ||
  c == Char.ofNat 11 || c == Char.ofNat 12

/-- Python `str.strip()`: drop leading and trailing whitespace. -/
def pyStrip (l : List Char) : List Char :=
  ((l.dropWhile pyIsWs).reverse.dropWhile pyIsWs).reverse

/-- Python `str.lower()` on the ASCII fragment. -/
def pyLower (l : List Char) : List Char :=
  l.map fun c => if c.isUpper then Char.ofNat (c.toNat + 32) else c

/-- `n.leadsWith h`: `n` is an initial segment of `h`
(used to model Python's substring test). -/
def leadsWith : List Char → List Char → Bool
  | [], _ => true
  | _ :: _, [] => false
  | a :: n, b :: h => a == b && leadsWith n h

/-- Python's `n in h` substring test on strings. -/
def isSubstring (n : List Char) : List Char → Bool
  | [] => leadsWith n []
  | b :: h => leadsWith n (b :: h) || isSubstring n h

/-! ## The content clean-up of `parse_sections` (line 149)

`content = re.sub(r'\n\s*\n\s*\n+', '\n\n', content)`.

For this pattern a match exists exactly at a `'\n'` whose maximal
whitespace run contains at least three newlines; the (backtracked) match
spans from that `'\n'` to just after the last newline of the run, and is
replaced by `"\n\n"`; scanning resumes after the match. -/

/-- If the maximal whitespace run at the head of `l` contains at least three
newlines, the length of the regex match `\n\s*\n\s*\n+` at the head of `l`
(which ends just after the run's last newline); `none` otherwise. -/
def nlMatchLen (l : List Char) : Option Nat :=
  let run := l.takeWhile pyIsWs
  if 3 ≤ (run.filter (· == '\n')).length then
    some (run.length - (run.reverse.takeWhile (· != '\n')).length)
  else
    none

/-- One left-to-right `re.sub` pass, fuelled by the list length. -/
def collapseGo : Nat → List Char → List Char
  | _, [] => []
  | 0, l => l
  | fuel + 1, c :: rest =>
    if c = '\n' then
      match nlMatchLen (c :: rest) with
      | some k => '\n' :: '\n' :: collapseGo fuel ((c :: rest).drop k)
      | none => c :: collapseGo fuel rest
    else
      c :: collapseGo fuel rest

/-- `re.sub(r'\n\s*\n\s*\n+', '\n\n', l)`. -/
def collapseNl (l : List Char) : List Char :=
  collapseGo l.length l

/-! ## Heading Classifier (`parse_sections`, lines 120-136) -/

/-- `sum(1 for c in title if c.isupper())`. -/
def upperCount (title : List Char) : Nat :=
  (title.filter Char.isUpper).length

/-- `len(title.replace(' ', ''))`: the number of non-space characters. -/
def nonSpaceLen (title : List Char) : Nat :=
  (title.filter (fun c => !(c == ' '))).length

/-- `uppercase_ratio = sum(1 for c in title if c.isupper()) /
max(len(title.replace(' ', '')), 1)`, as an exact rational. -/
def uppercaseRatio (title : List Char) : ℚ :=
  (upperCount title : ℚ) / (max (nonSpaceLen title) 1 : ℚ)

/-- The retention test of lines 131-135.  The float comparison
`uppercase_ratio > 0.7` is evaluated exactly by cross-multiplication
(`u / d > 7/10  ↔  10*u > 7*d` for `d ≥ 1`); `isMajor_iff_ratio` below
proves this form equal to the rational-ratio form. -/
def isMajor (number title : List Char) : Bool :=
  let isAllCaps :=
    decide (10 * upperCount title > 7 * max (nonSpaceLen title) 1) &&
    decide (title.length > 5)
  let isTopLevel := !(number.contains '.')
  isAllCaps || (isTopLevel && decide (title.length > 10))

/-- A heading candidate as produced by the detector loop (lines 122-136):
the stripped title, the group-1 number, and the span of the regex match. -/
structure Candidate where
  number : List Char
  title : List Char
  mstart : Nat
  mend : Nat
deriving DecidableEq, Repr

/-- The filter of lines 121-136: keep the candidates passing `isMajor`. -/
def classify (cands : List Candidate) : List Candidate :=
  cands.filter fun c => isMajor c.number c.title

/-! ## Heading Detector: the compiled pattern of lines 113-118

`section_pattern = re.compile(r'^(?:Section\s+)?(\d+(?:\.\d+)*)[\.:\s]\s*(.+?)$',
re.MULTILINE | re.IGNORECASE)` and `matches = list(section_pattern.finditer(text))`. -/

/-- Length of the maximal run of `p`-characters of `s` starting at index `i`. -/
def runLenFrom (p : Char → Bool) (s : List Char) (i : Nat) : Nat :=
  ((s.drop i).takeWhile p).length

/-- Index just past the `$` position of the line containing index `i`:
the index of the next `'\n'` at or after `i`, or `s.length`. -/
def lineEndFrom (s : List Char) (i : Nat) : Nat :=
  i + runLenFrom (fun c => c != '\n') s i

/-- Is the character at index `i` an ASCII digit (`\d`)? -/
def isDigitAt (s : List Char) (i : Nat) : Bool :=
  match s[i]? with
  | some c => c.isDigit
  | none => false

/-- `(?:Section\s+)?` (IGNORECASE): if the text at `i` reads `section`
case-insensitively, followed by at least one whitespace and then a digit,
the option matches greedily and we skip it; otherwise (digit or not) the
optional group matches the empty string.  (If the literal is present but no
digit follows the whitespace, neither alternative can complete a match,
which the later `\d+` test detects, since a leading `s`/`S` is no digit.) -/
def sectionSkip (s : List Char) (i : Nat) : Nat :=
  if pyLower ((s.drop i).take 7) = "section".toList then
    let w := runLenFrom pyIsWs s (i + 7)
    if 1 ≤ w && isDigitAt s (i + 7 + w) then i + 7 + w else i
  else i

/-- `(?:\.\d+)*` (greedy) starting at index `p`: returns the index after the
star together with the start index of its last repetition (if any), which is
where the engine backtracks to when the rest of the pattern fails. -/
def starScan (s : List Char) : Nat → Nat → Nat × Option Nat
  | 0, p => (p, none)
  | fuel + 1, p =>
    if s[p]? = some '.' && isDigitAt s (p + 1) then
      ((starScan s fuel (p + 1 + runLenFrom Char.isDigit s (p + 1))).1,
       some ((starScan s fuel (p + 1 + runLenFrom Char.isDigit s (p + 1))).2.getD p))
    else
      (p, none)

/-- `\s*(.+?)$` after the separator: the engine first consumes the maximal
whitespace run (length `k`), then backtracks one character at a time until
`.` can match (a present, non-newline character); the lazy `(.+?)` then
grows exactly to the next `$` position.  Returns the title span. -/
def btTitle (s : List Char) (q : Nat) : Nat → Option (Nat × Nat)
  | 0 =>
    match s[q]? with
    | some c => if c = '\n' then none else some (q, lineEndFrom s q)
    | none => none
  | k + 1 =>
    match s[q + (k + 1)]? with
    | some c =>
      if c = '\n' then btTitle s q k else some (q + (k + 1), lineEndFrom s (q + (k + 1)))
    | none => btTitle s q k

/-- `\s*(.+?)$` from index `q`. -/
def titleFrom (s : List Char) (q : Nat) : Option (Nat × Nat) :=
  btTitle s q (runLenFrom pyIsWs s q)

/-- `[\.:\s]\s*(.+?)$` at index `p`: a separator character, then the title. -/
def tailAt (s : List Char) (p : Nat) : Option (Nat × Nat) :=
  match s[p]? with
  | some c => if c = '.' || c = ':' || pyIsWs c then titleFrom s (p + 1) else none
  | none => none

/-- One regex match: start of the whole match, span of group 1 (the number)
and span of group 2 (the raw title); the match ends at `titleEnd` (the final
`$` is zero-width). -/
structure RMatch where
  mstart : Nat
  numStart : Nat
  numEnd : Nat
  titleStart : Nat
  titleEnd : Nat
deriving DecidableEq, Repr

/-- Attempt the whole pattern at `^`-position `i`.  After the greedy number
(`\d+(?:\.\d+)*`), the engine tries the tail; if that fails and the star had
at least one repetition, it gives the last repetition back (shrinking the
digit run of a repetition only moves the tail onto a digit, which matches no
separator, so the only productive backtrack is a whole repetition) and
retries the tail at the repetition's `.`, which then serves as separator. -/
def matchAt (s : List Char) (i : Nat) : Option RMatch :=
  let j := sectionSkip s i
  if isDigitAt s j then
    let p0 := j + runLenFrom Char.isDigit s j
    let sc := starScan s (s.length + 1) p0
    match tailAt s sc.1 with
    | some (ts, te) => some ⟨i, j, sc.1, ts, te⟩
    | none =>
      match sc.2 with
      | some pr => (tailAt s pr).map fun (ts, te) => ⟨i, j, pr, ts, te⟩
      | none => none
  else none

/-- The `^`-positions of MULTILINE: `0` and every index just after a `'\n'`
(`lineStartsGo s i` lists those of `s` shifted by `i`, excluding `0`). -/
def lineStartsGo : List Char → Nat → List Nat
  | [], _ => []
  | c :: rest, i =>
    if c = '\n' then (i + 1) :: lineStartsGo rest (i + 1) else lineStartsGo rest (i + 1)

/-- All `^`-positions of `s`, in increasing order. -/
def lineStarts (s : List Char) : List Nat :=
  0 :: lineStartsGo s 0

/-- `finditer`: scan the `^`-positions left to right, skipping positions
inside an already-emitted match; after a match, resume at its end. -/
def findAllGo (s : List Char) : List Nat → Nat → List RMatch
  | [], _ => []
  | i :: rest, pos =>
    if i < pos then findAllGo s rest pos
    else
      match matchAt s i with
      | some m => m :: findAllGo s rest m.titleEnd
      | none => findAllGo s rest pos

/-- `list(section_pattern.finditer(text))`. -/
def findAll (s : List Char) : List RMatch :=
  findAllGo s (lineStarts s) 0

/-- Python `text[a:b]` for `0 ≤ a ≤ b` (clamping at the ends). -/
def sliceL (s : List Char) (a b : Nat) : List Char :=
  (s.take b).drop a

/-- Lines 122-124: each match becomes a candidate carrying
`match.group(1)`, `match.group(2).strip()`, `match.start()`, `match.end()`. -/
def detect (s : List Char) : List Candidate :=
  (findAll s).map fun m =>
    ⟨sliceL s m.numStart m.numEnd, pyStrip (sliceL s m.titleStart m.titleEnd),
      m.mstart, m.titleEnd⟩

/-! ## Section Builder (`parse_sections`, lines 138-157) -/

/-- One parsed section, as the dictionaries built on lines 151-156. -/
structure Sect where
  section_number : List Char
  title : List Char
  content : List Char
  full_heading : List Char
deriving DecidableEq, Repr

/-- The loop of lines 138-157: for each retained candidate, content spans
from `match.end()` to the next retained candidate's `match.start()` (or
`len(text)`), then is `.strip()`ped, then blank runs are collapsed;
`full_heading` is `f"{section_number}. {title}"`. -/
def buildSections (text : List Char) : List Candidate → List Sect
  | [] => []
  | c :: rest =>
    let endPos :=
      match rest with
      | [] => text.length
      | c2 :: _ => c2.mstart
    { section_number := c.number
      title := c.title
      content := collapseNl (pyStrip (sliceL text c.mend endPos))
      full_heading := c.number ++ '.' :: ' ' :: c.title } :: buildSections text rest

/-- The pure part of `parse_sections` (lines 109-158), applied to the
decoded text. -/
def parseSections (text : List Char) : List Sect :=
  buildSections text (classify (detect text))

/-! ## Section Index (`get_section`, lines 160-177) -/

/-- The loop of lines 173-177: return the first section whose
`section_number` equals the query. -/
def getSectionLoop : List Sect → List Char → Option Sect
  | [], _ => none
  | s :: rest, q => if s.section_number = q then some s else getSectionLoop rest q

/-- `get_section` on a document's decoded text. -/
def get_section (text : List Char) (section_number : List Char) : Option Sect :=
  getSectionLoop (parseSections text) section_number

end SOP

namespace SOP

/-! ## Cross-Document Search (`search_sections`, lines 179-206)

The file-system enumeration `list_sops()` is the external document store:
it is modelled as an explicit list of documents, each with its id, filename
and decoded text (the spec's Text Source Adapter enumeration). -/

/-- One known document, as enumerated by `list_sops` and decoded. -/
structure SopDoc where
  sop_id : String
  filename : String
  text : List Char
deriving Repr

/-- A search hit: `section.copy()` plus `sop_id` and `sop_filename`
(lines 201-204). -/
structure SearchResult where
  sop_id : String
  sop_filename : String
  sec : Sect
deriving DecidableEq, Repr

/-- The inner loop of lines 196-204: keep the sections whose lowercased
title or content contains the lowercased query. -/
def searchInSections (queryLower : List Char) (d : SopDoc) : List Sect → List SearchResult
  | [] => []
  | s :: rest =>
    if isSubstring queryLower (pyLower s.title) || isSubstring queryLower (pyLower s.content) then
      ⟨d.sop_id, d.filename, s⟩ :: searchInSections queryLower d rest
    else
      searchInSections queryLower d rest

/-- The outer loop of lines 192-204 over the enumerated documents. -/
def search_sections (docs : List SopDoc) (query : List Char) : List SearchResult :=
  match docs with
  | [] => []
  | d :: rest =>
    searchInSections (pyLower query) d (parseSections d.text) ++ search_sections rest query

/-! ## Calculator Mapper (`map_section_to_calculator`, lines 208-240) -/

/-- The keyword table of lines 225-231, in insertion order. -/
def calculator_keywords : List (List Char × List (List Char)) :=
  [("pcr".toList, ["pcr".toList, "primer".toList, "annealing".toList, "thermocycler".toList,
      "amplification".toList]),
   ("gibson".toList, ["gibson".toList, "assembly".toList, "gibson assembly".toList,
      "fragment".toList]),
   ("restriction".toList, ["restriction".toList, "digest".toList,
      "restriction enzyme".toList, "cut".toList]),
   ("ligation".toList, ["ligation".toList, "ligate".toList, "insert".toList,
      "vector".toList, "clone".toList]),
   ("oligo".toList, ["oligo".toList, "annealing".toList, "oligonucleotide".toList])]

/-- The loop of lines 233-238: for each calculator, if any of its keywords
occurs in the text, append its name unless already present. -/
def mapLoop (text : List Char) : List (List Char × List (List Char)) → List (List Char) →
    List (List Char)
  | [], acc => acc
  | (nm, kws) :: rest, acc =>
    if kws.any (fun k => isSubstring k text) then
      if nm ∈ acc then mapLoop text rest acc else mapLoop text rest (acc ++ [nm])
    else
      mapLoop text rest acc

/-- `map_section_to_calculator`: search the lowercased concatenation
`title + " " + content`. -/
def map_section_to_calculator (section_title section_content : List Char) : List (List Char) :=
  mapLoop (pyLower (section_title ++ ' ' :: section_content)) calculator_keywords []

/-! ## Text Source Adapter (`extract_text_from_pdf`, lines 50-88)

Locating the backing file and running `pdfplumber` are external; they are
modelled by a deterministic `decode : String → Option (List Char)` supplied
as a parameter (`none` = file not found or extraction raised).  The decode
cache `self._sop_cache` is the explicit state.  The third component of the
result counts the decode operations performed by the call. -/

/-- The decode cache, keyed by `sop_id` (insertion order kept). -/
structure AdapterState where
  cache : List (String × List Char)
deriving DecidableEq, Repr

/-- `if sop_id in self._sop_cache: return self._sop_cache[sop_id]`. -/
def lookupCache : List (String × List Char) → String → Option (List Char)
  | [], _ => none
  | (k, v) :: rest, id => if k = id then some v else lookupCache rest id

/-- `extract_text_from_pdf`: cache hit returns the cached text (no decode);
on a miss, one decode is attempted; success is cached, failure is returned
as `none` with the cache untouched. -/
def resolve (decode : String → Option (List Char)) (st : AdapterState) (id : String) :
    Option (List Char) × AdapterState × Nat :=
  match lookupCache st.cache id with
  | some t => (some t, st, 0)
  | none =>
    match decode id with
    | some t => (some t, ⟨st.cache ++ [(id, t)]⟩, 1)
    | none => (none, st, 1)

/-- The page loop of lines 75-80: concatenate `text + "\n"` for every page
whose `extract_text()` is truthy (`none` models both `None` and `""`-like
falsy page text skipped by `if text:`). -/
def pagesText (pages : List (Option (List Char))) : List Char :=
  pages.foldl
    (fun acc p =>
      match p with
      | some t => if t = [] then acc else acc ++ t ++ ['\n']
      | none => acc)
    []

/-- `parse_sections` with the adapter: lines 105-107 guard on falsy text
(`None` or `""`) before the pure pipeline runs. -/
def parse_sections_st (decode : String → Option (List Char)) (st : AdapterState)
    (id : String) : List Sect × AdapterState :=
  let r := resolve decode st id
  match r.1 with
  | none => ([], r.2.1)
  | some t => (if t = [] then [] else parseSections t, r.2.1)

/-! ## Endpoint logic (`api/main.py`) -/

/-- Result of `GET /sops/{sop_id}/sections` (lines 329-378 of `main.py`),
reduced to its control-flow outcome. -/
inductive SectionsResult where
  | found (sections : List Sect)
  | noSections (raw_text_available : Bool)
  | notFound
deriving DecidableEq, Repr

/-- `get_sop_sections`: parse; if empty, re-extract the text and return the
no-sections marker when the text is truthy, 404 otherwise. -/
def get_sections (decode : String → Option (List Char)) (st : AdapterState) (id : String) :
    SectionsResult × AdapterState :=
  let pr := parse_sections_st decode st id
  if pr.1 = [] then
    let r2 := resolve decode pr.2 id
    match r2.1 with
    | some t => if t = [] then (.notFound, r2.2.1) else (.noSections true, r2.2.1)
    | none => (.notFound, r2.2.1)
  else
    (.found pr.1, pr.2)

/-- Result of `GET /sops/{sop_id}/text` (lines 446-481 of `main.py`). -/
inductive TextResult where
  | found (text : List Char)
  | notFound
deriving DecidableEq, Repr

/-- `get_sop_full_text`: 404 exactly when the extracted text is falsy. -/
def get_raw_text (decode : String → Option (List Char)) (st : AdapterState) (id : String) :
    TextResult × AdapterState :=
  let r := resolve decode st id
  match r.1 with
  | some t => if t = [] then (.notFound, r.2.1) else (.found t, r.2.1)
  | none => (.notFound, r.2.1)

end SOP


namespace SOP

/-- The claim's reading of the classifier criterion (C1), following the
claim's words: the ratio divides the uppercase letters by the *non-space
letters* of the title (the code instead divides by all non-space
characters). -/
def claimedRetained (number title : List Char) : Prop :=
  ((upperCount title : ℚ) / ((title.filter Char.isAlpha).length : ℚ) > 7 / 10 ∧
    title.length > 5) ∨
  ('.' ∉ number ∧ title.length > 10)

/-- The keyword table as the claim (C6) lists it: without the code's
redundant two-word keywords `"gibson assembly"` and `"restriction enzyme"`
(any text containing one of those contains `"gibson"` resp. `"restriction"`,
so the two tables select the same tags). -/
def claimedKeywords : List (List Char × List (List Char)) :=
  [("pcr".toList, ["pcr".toList, "primer".toList, "annealing".toList, "thermocycler".toList,
      "amplification".toList]),
   ("gibson".toList, ["gibson".toList, "assembly".toList, "fragment".toList]),
   ("restriction".toList, ["restriction".toList, "digest".toList, "cut".toList]),
   ("ligation".toList, ["ligation".toList, "ligate".toList, "insert".toList,
      "vector".toList, "clone".toList]),
   ("oligo".toList, ["oligo".toList, "annealing".toList, "oligonucleotide".toList])]

end SOP

/-! # Theorems -/

namespace SOP

/-- Exact form of the float test `u / d > 0.7` (`d ≥ 1`): clearing the
denominators turns it into `10 * u > 7 * d`. -/
theorem ratio_gt_iff (u d : ℕ) (hd : 0 < d) :
    ((u : ℚ) / (d : ℚ) > 7 / 10) ↔ 10 * u > 7 * d := by
  rw [gt_iff_lt, div_lt_div_iff₀ (by norm_num) (by exact_mod_cast hd)]
  constructor
  · intro h
    have h2 : (7 * d : ℕ) < (u * 10 : ℕ) := by exact_mod_cast h
    omega
  · intro h
    have h2 : (7 * d : ℕ) < (u * 10 : ℕ) := by omega
    exact_mod_cast h2

/-- The executable retention test agrees with the rational-ratio reading of
lines 131-135. -/
theorem isMajor_iff (number title : List Char) :
    isMajor number title = true ↔
      (uppercaseRatio title > 7 / 10 ∧ title.length > 5) ∨
      ('.' ∉ number ∧ title.length > 10) := by
  have hd : 0 < max (nonSpaceLen title) 1 := by omega
  have hr := ratio_gt_iff (upperCount title) (max (nonSpaceLen title) 1) hd
  simp only [isMajor, uppercaseRatio, Bool.or_eq_true, Bool.and_eq_true,
    decide_eq_true_eq, Bool.not_eq_true']
  push_cast at hr ⊢
  rw [hr]
  simp

end SOP

namespace SOP

/-- Claim C1, as stated, is false: on the detector output for the line
`"1.1 ABC 123 DEF"` (one candidate, number `"1.1"`, title `"ABC 123 DEF"`),
the claim's criterion holds (6 uppercase letters out of 6 non-space letters,
title length 11 > 5) yet the classifier retains nothing, because the code
divides by the 9 non-space characters and 60/90 ≤ 0.7. -/
theorem claim_C1_counterexample :
    detect "1.1 ABC 123 DEF".toList =
      [⟨"1.1".toList, "ABC 123 DEF".toList, 0, 15⟩] ∧
    claimedRetained "1.1".toList "ABC 123 DEF".toList ∧
    classify (detect "1.1 ABC 123 DEF".toList) = [] := by
  refine ⟨by decide, Or.inl ⟨?_, by decide⟩, by decide⟩
  have h1 : upperCount "ABC 123 DEF".toList = 6 := by decide
  have h2 : ("ABC 123 DEF".toList.filter Char.isAlpha).length = 6 := by decide
  rw [h1, h2]
  norm_num

/-- Claim C1 (amended: the uppercase ratio divides by the non-space
*characters* of the title, as the code's `len(title.replace(' ', ''))`
does): the classifier retains a candidate iff the uppercase ratio exceeds
0.7 with title length > 5, or the number has no dot and the title is longer
than 10; the retained candidates are an order-preserving subset (sublist) of
the input.  The two sample lines behave as the claim says: `"2.5 mL of
buffer"` yields no retained candidate, `"3. MATERIALS AND METHODS"` is
retained. -/
theorem claim_C1 (cands : List Candidate) :
    (classify cands).Sublist cands ∧
    (∀ c : Candidate, c ∈ classify cands ↔ c ∈ cands ∧
      ((uppercaseRatio c.title > 7 / 10 ∧ c.title.length > 5) ∨
       ('.' ∉ c.number ∧ c.title.length > 10))) ∧
    classify (detect "2.5 mL of buffer".toList) = [] ∧
    classify (detect "3. MATERIALS AND METHODS".toList) =
      [⟨"3".toList, "MATERIALS AND METHODS".toList, 0, 24⟩] := by
  refine ⟨List.filter_sublist cands, fun c => ?_, by decide, by decide⟩
  rw [classify, List.mem_filter, isMajor_iff]

end SOP

namespace SOP

/-- Builder produces one section per retained candidate. -/
theorem buildSections_length (text : List Char) (cands : List Candidate) :
    (buildSections text cands).length = cands.length := by
  induction cands with
  | nil => rfl
  | cons c rest ih => simp [buildSections, ih]

/-- Index-wise description of the builder loop: the `i`-th section is built
from the `i`-th retained candidate, its content sliced from that candidate's
match end to the next candidate's match start (or the end of the text). -/
theorem buildSections_getElem? (text : List Char) (cands : List Candidate) (i : Nat) :
    (buildSections text cands)[i]? = (cands[i]?).map fun c =>
      { section_number := c.number
        title := c.title
        content := collapseNl (pyStrip (sliceL text c.mend
          (match cands[i + 1]? with
           | some c2 => c2.mstart
           | none => text.length)))
        full_heading := c.number ++ '.' :: ' ' :: c.title } := by
  induction cands generalizing i with
  | nil => simp [buildSections]
  | cons c rest ih =>
    cases i with
    | zero => cases rest <;> simp [buildSections]
    | succ n => simpa [buildSections] using ih n

end SOP

namespace SOP

/-- Claim C2, as stated, is false: the code also strips leading/trailing
whitespace from each content slice, and its blank-line collapse already
fires at *two* consecutive blank lines (three newlines).  For the text
`"1. INTRODUCTION\nabc\n\n\ndef\n"` with its single retained boundary
(match end 15), the slice to the end of the text is `"\nabc\n\n\ndef\n"`,
which contains no run of three or more blank lines, so the claim predicts
exactly that slice as content; the code produces `"abc\n\ndef"`. -/
theorem claim_C2_counterexample :
    (buildSections "1. INTRODUCTION\nabc\n\n\ndef\n".toList
        [⟨"1".toList, "INTRODUCTION".toList, 0, 15⟩]).map Sect.content =
      ["abc\n\ndef".toList] ∧
    sliceL "1. INTRODUCTION\nabc\n\n\ndef\n".toList 15 26 = "\nabc\n\n\ndef\n".toList ∧
    "abc\n\ndef".toList ≠ "\nabc\n\n\ndef\n".toList := by
  refine ⟨by decide, by decide, by decide⟩

/-- Claim C2 (amended: the content is the slice from the end of the
boundary's heading match to the start of the next boundary — or the end of
the text — first stripped of leading and trailing whitespace, and with every
whitespace run containing three or more newlines, i.e. two or more blank
lines, collapsed to exactly one blank line; `full_heading` is
`"{number}. {title}"`): one section per boundary, index-wise. -/
theorem claim_C2 (text : List Char) (cands : List Candidate) :
    (buildSections text cands).length = cands.length ∧
    ∀ i : Nat, (buildSections text cands)[i]? = (cands[i]?).map fun c =>
      { section_number := c.number
        title := c.title
        content := collapseNl (pyStrip (sliceL text c.mend
          (match cands[i + 1]? with
           | some c2 => c2.mstart
           | none => text.length)))
        full_heading := c.number ++ '.' :: ' ' :: c.title } :=
  ⟨buildSections_length text cands, fun i => buildSections_getElem? text cands i⟩

end SOP

namespace SOP

/-- The lookup loop finds nothing iff no section carries the queried
number. -/
theorem getSectionLoop_eq_none_iff (l : List Sect) (q : List Char) :
    getSectionLoop l q = none ↔ ∀ s ∈ l, s.section_number ≠ q := by
  induction l with
  | nil => simp [getSectionLoop]
  | cons s rest ih =>
    by_cases h : s.section_number = q <;> simp [getSectionLoop, h, ih]

/-- What a successful lookup returns: the matching section at the least
matching index. -/
theorem getSectionLoop_eq_some (l : List Sect) (q : List Char) (sec : Sect)
    (h : getSectionLoop l q = some sec) :
    sec.section_number = q ∧ ∃ i : Nat, l[i]? = some sec ∧
      ∀ j : Nat, j < i → ∀ s' : Sect, l[j]? = some s' → s'.section_number ≠ q := by
  induction l generalizing sec with
  | nil => simp [getSectionLoop] at h
  | cons s rest ih =>
    by_cases hs : s.section_number = q
    · simp [getSectionLoop, hs] at h
      subst h
      exact ⟨hs, 0, by simp, by omega⟩
    · simp [getSectionLoop, hs] at h
      obtain ⟨hnum, i, hi, hmin⟩ := ih sec h
      refine ⟨hnum, i + 1, by simpa using hi, fun j hj s' hs' => ?_⟩
      cases j with
      | zero =>
        simp at hs'
        subst hs'
        exact hs
      | succ m =>
        simp at hs'
        exact hmin m (by omega) s' hs'

/-- If some section matches, the lookup succeeds. -/
theorem getSectionLoop_isSome_of_mem (l : List Sect) (q : List Char) (s : Sect)
    (hs : s ∈ l) (hn : s.section_number = q) : ∃ sec, getSectionLoop l q = some sec := by
  cases h : getSectionLoop l q with
  | some sec => exact ⟨sec, rfl⟩
  | none => exact absurd hn ((getSectionLoop_eq_none_iff l q).mp h s hs)

/-- Claim C3: `get_section` returns the first section (in iteration order)
whose number exactly string-equals the query — equality of the raw strings,
so no numeric normalization can occur — and `none` exactly when no section's
number equals the query. -/
theorem claim_C3 (text : List Char) (q : List Char) :
    (get_section text q = none ↔ ∀ s ∈ parseSections text, s.section_number ≠ q) ∧
    (∀ sec : Sect, get_section text q = some sec →
      sec.section_number = q ∧ ∃ i : Nat, (parseSections text)[i]? = some sec ∧
        ∀ j : Nat, j < i → ∀ s' : Sect, (parseSections text)[j]? = some s' →
          s'.section_number ≠ q) :=
  ⟨getSectionLoop_eq_none_iff (parseSections text) q,
   fun sec h => getSectionLoop_eq_some (parseSections text) q sec h⟩

/-- Witness for C3 at the document `"1. SAFETY NOTES\nfoo"` and query
`"1"`. -/
theorem claim_C3_witness :
    (⟨"1".toList, "SAFETY NOTES".toList, "foo".toList,
        "1. SAFETY NOTES".toList⟩ : Sect).section_number = "1".toList ∧
    ∃ i : Nat, (parseSections "1. SAFETY NOTES\nfoo".toList)[i]? =
        some ⟨"1".toList, "SAFETY NOTES".toList, "foo".toList, "1. SAFETY NOTES".toList⟩ ∧
      ∀ j : Nat, j < i → ∀ s' : Sect,
        (parseSections "1. SAFETY NOTES\nfoo".toList)[j]? = some s' →
          s'.section_number ≠ "1".toList :=
  (claim_C3 "1. SAFETY NOTES\nfoo".toList "1".toList).2
    ⟨"1".toList, "SAFETY NOTES".toList, "foo".toList, "1. SAFETY NOTES".toList⟩
    (by set_option maxRecDepth 40000 in decide)

end SOP

namespace SOP

/-- Claim C4, as stated, is false: in the document
`"1. FIRST AAA\nx\n1. SECOND BBB\ny"` both sections carry number `"1"`;
`get_section` returns the one at index 0 — not the last matching section,
which sits at index 1 and differs from it. -/
theorem claim_C4_counterexample :
    parseSections "1. FIRST AAA\nx\n1. SECOND BBB\ny".toList =
      [⟨"1".toList, "FIRST AAA".toList, "x".toList, "1. FIRST AAA".toList⟩,
       ⟨"1".toList, "SECOND BBB".toList, "y".toList, "1. SECOND BBB".toList⟩] ∧
    get_section "1. FIRST AAA\nx\n1. SECOND BBB\ny".toList "1".toList =
      some ⟨"1".toList, "FIRST AAA".toList, "x".toList, "1. FIRST AAA".toList⟩ ∧
    (⟨"1".toList, "FIRST AAA".toList, "x".toList, "1. FIRST AAA".toList⟩ : Sect) ≠
      ⟨"1".toList, "SECOND BBB".toList, "y".toList, "1. SECOND BBB".toList⟩ := by
  refine ⟨?_, ?_, by decide⟩
  · set_option maxRecDepth 80000 in decide
  · set_option maxRecDepth 80000 in decide

/-- Claim C4 (amended: with duplicate number strings, point lookup is keyed
to the *first* match): whenever two sections at positions `i < j` both carry
the queried number, `get_section` returns the section at the least matching
index, which is at or before `i`. -/
theorem claim_C4 (text q : List Char) (i j : Nat) (si sj : Sect)
    (hij : i < j)
    (hi : (parseSections text)[i]? = some si)
    (hj : (parseSections text)[j]? = some sj)
    (hni : si.section_number = q)
    (hnj : sj.section_number = q) :
    ∃ (k : Nat) (sk : Sect), k ≤ i ∧ (parseSections text)[k]? = some sk ∧
      get_section text q = some sk ∧ sk.section_number = q ∧
      ∀ m : Nat, m < k → ∀ sm : Sect, (parseSections text)[m]? = some sm →
        sm.section_number ≠ q := by
  obtain ⟨sec, hsec⟩ :=
    getSectionLoop_isSome_of_mem (parseSections text) q si (List.getElem?_mem hi) hni
  obtain ⟨hnum, k, hk, hmin⟩ := getSectionLoop_eq_some (parseSections text) q sec hsec
  refine ⟨k, sec, ?_, hk, hsec, hnum, hmin⟩
  by_contra hgt
  exact hmin i (by omega) si hi hni

/-- Witness for the amended C4 on the duplicate-numbered document. -/
theorem claim_C4_witness :
    ∃ (k : Nat) (sk : Sect), k ≤ 0 ∧
      (parseSections "1. FIRST AAA\nx\n1. SECOND BBB\ny".toList)[k]? = some sk ∧
      get_section "1. FIRST AAA\nx\n1. SECOND BBB\ny".toList "1".toList = some sk ∧
      sk.section_number = "1".toList ∧
      ∀ m : Nat, m < k → ∀ sm : Sect,
        (parseSections "1. FIRST AAA\nx\n1. SECOND BBB\ny".toList)[m]? = some sm →
          sm.section_number ≠ "1".toList :=
  claim_C4 "1. FIRST AAA\nx\n1. SECOND BBB\ny".toList "1".toList 0 1
    ⟨"1".toList, "FIRST AAA".toList, "x".toList, "1. FIRST AAA".toList⟩
    ⟨"1".toList, "SECOND BBB".toList, "y".toList, "1. SECOND BBB".toList⟩
    (by decide)
    (by set_option maxRecDepth 80000 in decide)
    (by set_option maxRecDepth 80000 in decide)
    (by decide) (by decide)

end SOP

namespace SOP

/-- `leadsWith` is the initial-segment test. -/
theorem leadsWith_iff (n h : List Char) :
    leadsWith n h = true ↔ ∃ t : List Char, h = n ++ t := by
  induction n generalizing h with
  | nil => simp [leadsWith]
  | cons a n ih =>
    cases h with
    | nil => simp [leadsWith]
    | cons b h =>
      simp only [leadsWith, Bool.and_eq_true, beq_iff_eq, ih, List.cons_append,
        List.cons.injEq]
      constructor
      · rintro ⟨rfl, t, rfl⟩
        exact ⟨t, rfl, rfl⟩
      · rintro ⟨t, rfl, rfl⟩
        exact ⟨rfl, t, rfl⟩

/-- `isSubstring` is Python's substring containment. -/
theorem isSubstring_iff (n h : List Char) :
    isSubstring n h = true ↔ ∃ a b : List Char, h = a ++ n ++ b := by
  induction h with
  | nil =>
    simp only [isSubstring, leadsWith_iff]
    constructor
    · rintro ⟨t, ht⟩
      exact ⟨[], t, ht⟩
    · rintro ⟨a, b, hab⟩
      have ha : a = [] := by
        cases a with
        | nil => rfl
        | cons x xs => simp at hab
      subst ha
      exact ⟨b, by simpa using hab⟩
  | cons c h ih =>
    simp only [isSubstring, Bool.or_eq_true, leadsWith_iff, ih]
    constructor
    · rintro (⟨t, ht⟩ | ⟨a, b, rfl⟩)
      · exact ⟨[], t, by simpa using ht⟩
      · exact ⟨c :: a, b, by simp⟩
    · rintro ⟨a, b, hab⟩
      cases a with
      | nil => exact Or.inl ⟨b, by simpa using hab⟩
      | cons x xs =>
        simp only [List.cons_append, List.cons.injEq] at hab
        exact Or.inr ⟨xs, b, hab.2⟩

/-- Membership in the per-document search loop. -/
theorem mem_searchInSections (ql : List Char) (d : SopDoc) (ss : List Sect)
    (r : SearchResult) :
    r ∈ searchInSections ql d ss ↔ ∃ s ∈ ss,
      (isSubstring ql (pyLower s.title) || isSubstring ql (pyLower s.content)) = true ∧
      r = ⟨d.sop_id, d.filename, s⟩ := by
  induction ss with
  | nil => simp [searchInSections]
  | cons s rest ih =>
    by_cases h : (isSubstring ql (pyLower s.title) || isSubstring ql (pyLower s.content)) = true
    · simp only [searchInSections, if_pos h, List.mem_cons, ih, List.mem_cons]
      constructor
      · rintro (rfl | ⟨s', hs', hc, rfl⟩)
        · exact ⟨s, Or.inl rfl, h, rfl⟩
        · exact ⟨s', Or.inr hs', hc, rfl⟩
      · rintro ⟨s', (rfl | hs'), hc, rfl⟩
        · exact Or.inl rfl
        · exact Or.inr ⟨s', hs', hc, rfl⟩
    · simp only [searchInSections, if_neg h, ih, List.mem_cons]
      constructor
      · rintro ⟨s', hs', hc, rfl⟩
        exact ⟨s', Or.inr hs', hc, rfl⟩
      · rintro ⟨s', (rfl | hs'), hc, rfl⟩
        · exact absurd hc h
        · exact ⟨s', hs', hc, rfl⟩

/-- The per-document hits are an order-preserving selection of the parsed
sections. -/
theorem searchInSections_sublist (ql : List Char) (d : SopDoc) (ss : List Sect) :
    ((searchInSections ql d ss).map SearchResult.sec).Sublist ss := by
  induction ss with
  | nil => simp [searchInSections]
  | cons s rest ih =>
    rw [searchInSections]
    split
    · simpa using ih.cons₂ s
    · exact ih.cons s

/-- Membership in the cross-document search. -/
theorem mem_search_sections (docs : List SopDoc) (query : List Char) (r : SearchResult) :
    r ∈ search_sections docs query ↔ ∃ d ∈ docs, ∃ s ∈ parseSections d.text,
      (isSubstring (pyLower query) (pyLower s.title) ||
        isSubstring (pyLower query) (pyLower s.content)) = true ∧
      r = ⟨d.sop_id, d.filename, s⟩ := by
  induction docs with
  | nil => simp [search_sections]
  | cons d rest ih =>
    simp only [search_sections, List.mem_append, mem_searchInSections, ih, List.mem_cons]
    constructor
    · rintro (⟨s, hs, hc, rfl⟩ | ⟨d', hd', hrest⟩)
      · exact ⟨d, Or.inl rfl, s, hs, hc, rfl⟩
      · exact ⟨d', Or.inr hd', hrest⟩
    · rintro ⟨d', (rfl | hd'), hrest⟩
      · exact Or.inl (by exact ⟨hrest.choose, hrest.choose_spec.1, hrest.choose_spec.2⟩)
      · exact Or.inr ⟨d', hd', hrest⟩

end SOP

namespace SOP

/-- Claim C5: `search_sections` returns exactly the (document, section)
pairs whose lowercased title or content contains the lowercased query as a
literal substring — no pair where neither does, every pair where either
does — ordered by document enumeration order and, within a document, by
section order (the hits of the first document come first, and the hits of
one document are an order-preserving selection of its section list). -/
theorem claim_C5 (docs : List SopDoc) (query : List Char) :
    (∀ r : SearchResult, r ∈ search_sections docs query ↔
      ∃ d ∈ docs, ∃ s ∈ parseSections d.text,
        ((∃ a b : List Char, pyLower s.title = a ++ pyLower query ++ b) ∨
         (∃ a b : List Char, pyLower s.content = a ++ pyLower query ++ b)) ∧
        r = ⟨d.sop_id, d.filename, s⟩) ∧
    (∀ (d : SopDoc) (rest : List SopDoc), search_sections (d :: rest) query =
      searchInSections (pyLower query) d (parseSections d.text) ++
        search_sections rest query) ∧
    (∀ d : SopDoc,
      ((searchInSections (pyLower query) d (parseSections d.text)).map
        SearchResult.sec).Sublist (parseSections d.text)) ∧
    search_sections [] query = [] := by
  refine ⟨fun r => ?_, fun d rest => rfl,
    fun d => searchInSections_sublist _ d _, rfl⟩
  rw [mem_search_sections]
  constructor
  · rintro ⟨d, hd, s, hs, hc, rfl⟩
    refine ⟨d, hd, s, hs, ?_, rfl⟩
    rcases Bool.or_eq_true_iff.mp hc with h | h
    · exact Or.inl ((isSubstring_iff _ _).mp h)
    · exact Or.inr ((isSubstring_iff _ _).mp h)
  · rintro ⟨d, hd, s, hs, hc, rfl⟩
    refine ⟨d, hd, s, hs, ?_, rfl⟩
    rcases hc with h | h
    · exact Bool.or_eq_true_iff.mpr (Or.inl ((isSubstring_iff _ _).mpr h))
    · exact Bool.or_eq_true_iff.mpr (Or.inr ((isSubstring_iff _ _).mpr h))

end SOP

namespace SOP

/-- Membership in the mapper loop: a name is collected iff it was already in
the accumulator or some table row with that name has a matching keyword. -/
theorem mem_mapLoop (text : List Char) (tbl : List (List Char × List (List Char)))
    (acc : List (List Char)) (a : List Char) :
    a ∈ mapLoop text tbl acc ↔ a ∈ acc ∨
      ∃ kws, (a, kws) ∈ tbl ∧ kws.any (fun k => isSubstring k text) = true := by
  induction tbl generalizing acc with
  | nil => simp [mapLoop]
  | cons row rest ih =>
    obtain ⟨nm, kws⟩ := row
    by_cases hmatch : kws.any (fun k => isSubstring k text) = true
    · by_cases hmem : nm ∈ acc
      · rw [mapLoop, if_pos hmatch, if_pos hmem, ih]
        constructor
        · rintro (h | h)
          · exact Or.inl h
          · exact Or.inr ⟨h.choose, List.mem_cons_of_mem _ h.choose_spec.1,
              h.choose_spec.2⟩
        · rintro (h | ⟨kws', hk, hany⟩)
          · exact Or.inl h
          · rcases List.mem_cons.mp hk with heq | hk'
            · rw [Prod.mk.injEq] at heq
              exact Or.inl (heq.1 ▸ hmem)
            · exact Or.inr ⟨kws', hk', hany⟩
      · rw [mapLoop, if_pos hmatch, if_neg hmem, ih]
        constructor
        · rintro (h | h)
          · rcases List.mem_append.mp h with h' | h'
            · exact Or.inl h'
            · have ha : a = nm := by simpa using h'
              subst ha
              exact Or.inr ⟨kws, List.mem_cons_self _ _, hmatch⟩
          · exact Or.inr ⟨h.choose, List.mem_cons_of_mem _ h.choose_spec.1,
              h.choose_spec.2⟩
        · rintro (h | ⟨kws', hk, hany⟩)
          · exact Or.inl (List.mem_append.mpr (Or.inl h))
          · rcases List.mem_cons.mp hk with heq | hk'
            · rw [Prod.mk.injEq] at heq
              exact Or.inl (List.mem_append.mpr (Or.inr (by simp [heq.1])))
            · exact Or.inr ⟨kws', hk', hany⟩
    · rw [mapLoop, if_neg hmatch, ih]
      constructor
      · rintro (h | h)
        · exact Or.inl h
        · exact Or.inr ⟨h.choose, List.mem_cons_of_mem _ h.choose_spec.1,
            h.choose_spec.2⟩
      · rintro (h | ⟨kws', hk, hany⟩)
        · exact Or.inl h
        · rcases List.mem_cons.mp hk with heq | hk'
          · rw [Prod.mk.injEq] at heq
            exact absurd (heq.2 ▸ hany) hmatch
          · exact Or.inr ⟨kws', hk', hany⟩

/-- The mapper loop never duplicates an entry. -/
theorem mapLoop_nodup (text : List Char) (tbl : List (List Char × List (List Char)))
    (acc : List (List Char)) (hacc : acc.Nodup) : (mapLoop text tbl acc).Nodup := by
  induction tbl generalizing acc with
  | nil => exact hacc
  | cons row rest ih =>
    obtain ⟨nm, kws⟩ := row
    rw [mapLoop]
    split
    · split
      · exact ih acc hacc
      · refine ih _ ?_
        simp [List.nodup_append, hacc, *]
    · exact ih acc hacc

end SOP

namespace SOP

/-- A text containing `n1 ++ n2` contains `n1`. -/
theorem isSubstring_append_left (n1 n2 h : List Char)
    (hs : isSubstring (n1 ++ n2) h = true) : isSubstring n1 h = true := by
  obtain ⟨a, b, rfl⟩ := (isSubstring_iff _ _).mp hs
  exact (isSubstring_iff _ _).mpr ⟨a, n2 ++ b, by simp⟩

/-- The code's keyword table and the claim's keyword table select the same
tags: the code's extra keywords `"gibson assembly"` and
`"restriction enzyme"` are redundant, because a text containing them
contains `"gibson"` resp. `"restriction"`. -/
theorem keywords_tables_agree (text a : List Char) :
    (∃ kws, (a, kws) ∈ calculator_keywords ∧
      kws.any (fun k => isSubstring k text) = true) ↔
    (∃ kws, (a, kws) ∈ claimedKeywords ∧
      kws.any (fun k => isSubstring k text) = true) := by
  have hgib : isSubstring "gibson assembly".toList text = true →
      isSubstring "gibson".toList text = true := by
    intro h
    have he : ("gibson assembly".toList) = "gibson".toList ++ " assembly".toList := by
      decide
    rw [he] at h
    exact isSubstring_append_left _ _ _ h
  have hres : isSubstring "restriction enzyme".toList text = true →
      isSubstring "restriction".toList text = true := by
    intro h
    have he : ("restriction enzyme".toList) =
        "restriction".toList ++ " enzyme".toList := by decide
    rw [he] at h
    exact isSubstring_append_left _ _ _ h
  constructor
  · rintro ⟨kws, hk, hany⟩
    simp only [calculator_keywords, List.mem_cons, List.not_mem_nil, or_false,
      Prod.mk.injEq] at hk
    rcases hk with ⟨rfl, rfl⟩ | ⟨rfl, rfl⟩ | ⟨rfl, rfl⟩ | ⟨rfl, rfl⟩ | ⟨rfl, rfl⟩
    · exact ⟨_, show _ ∈ claimedKeywords by simp [claimedKeywords], hany⟩
    · refine ⟨"gibson".toList :: "assembly".toList :: "fragment".toList :: [],
        show _ ∈ claimedKeywords by simp [claimedKeywords], ?_⟩
      simp only [List.any_cons, List.any_nil, Bool.or_eq_true, Bool.or_false] at hany ⊢
      rcases hany with h | h | h | h
      · exact Or.inl h
      · exact Or.inr (Or.inl h)
      · exact Or.inl (hgib h)
      · exact Or.inr (Or.inr h)
    · refine ⟨"restriction".toList :: "digest".toList :: "cut".toList :: [],
        show _ ∈ claimedKeywords by simp [claimedKeywords], ?_⟩
      simp only [List.any_cons, List.any_nil, Bool.or_eq_true, Bool.or_false] at hany ⊢
      rcases hany with h | h | h | h
      · exact Or.inl h
      · exact Or.inr (Or.inl h)
      · exact Or.inl (hres h)
      · exact Or.inr (Or.inr h)
    · exact ⟨_, show _ ∈ claimedKeywords by simp [claimedKeywords], hany⟩
    · exact ⟨_, show _ ∈ claimedKeywords by simp [claimedKeywords], hany⟩
  · rintro ⟨kws, hk, hany⟩
    simp only [claimedKeywords, List.mem_cons, List.not_mem_nil, or_false,
      Prod.mk.injEq] at hk
    rcases hk with ⟨rfl, rfl⟩ | ⟨rfl, rfl⟩ | ⟨rfl, rfl⟩ | ⟨rfl, rfl⟩ | ⟨rfl, rfl⟩
    · exact ⟨_, show _ ∈ calculator_keywords by simp [calculator_keywords], hany⟩
    · refine ⟨"gibson".toList :: "assembly".toList :: "gibson assembly".toList ::
        "fragment".toList :: [],
        show _ ∈ calculator_keywords by simp [calculator_keywords], ?_⟩
      simp only [List.any_cons, List.any_nil, Bool.or_eq_true, Bool.or_false] at hany ⊢
      rcases hany with h | h | h
      · exact Or.inl h
      · exact Or.inr (Or.inl h)
      · exact Or.inr (Or.inr (Or.inr h))
    · refine ⟨"restriction".toList :: "digest".toList ::
        "restriction enzyme".toList :: "cut".toList :: [],
        show _ ∈ calculator_keywords by simp [calculator_keywords], ?_⟩
      simp only [List.any_cons, List.any_nil, Bool.or_eq_true, Bool.or_false] at hany ⊢
      rcases hany with h | h | h
      · exact Or.inl h
      · exact Or.inr (Or.inl h)
      · exact Or.inr (Or.inr (Or.inr h))
    · exact ⟨_, show _ ∈ calculator_keywords by simp [calculator_keywords], hany⟩
    · exact ⟨_, show _ ∈ calculator_keywords by simp [calculator_keywords], hany⟩

end SOP

namespace SOP

/-- Claim C6: the mapper returns a duplicate-free collection containing a
tag iff some keyword of that tag's list (as the claim lists the tables) is a
substring of the lowercased concatenation of title and content; a text
containing `"annealing"` and no other keyword maps to exactly
`[pcr, oligo]`. -/
theorem claim_C6 (title content : List Char) :
    (map_section_to_calculator title content).Nodup ∧
    (∀ tag : List Char, tag ∈ map_section_to_calculator title content ↔
      ∃ kws, (tag, kws) ∈ claimedKeywords ∧ ∃ kw ∈ kws,
        ∃ a b : List Char, pyLower (title ++ ' ' :: content) = a ++ kw ++ b) ∧
    map_section_to_calculator "annealing".toList [] =
      ["pcr".toList, "oligo".toList] := by
  refine ⟨mapLoop_nodup _ _ _ List.nodup_nil, fun tag => ?_, by decide⟩
  rw [map_section_to_calculator, mem_mapLoop]
  simp only [List.not_mem_nil, false_or]
  rw [keywords_tables_agree]
  constructor
  · rintro ⟨kws, hk, hany⟩
    obtain ⟨kw, hkw, hsub⟩ := List.any_eq_true.mp hany
    obtain ⟨a, b, hab⟩ := (isSubstring_iff _ _).mp hsub
    exact ⟨kws, hk, kw, hkw, a, b, hab⟩
  · rintro ⟨kws, hk, kw, hkw, a, b, hab⟩
    exact ⟨kws, hk, List.any_eq_true.mpr
      ⟨kw, hkw, (isSubstring_iff _ _).mpr ⟨a, b, hab⟩⟩⟩

end SOP

namespace SOP

/-- Appending a fresh entry makes it findable. -/
theorem lookupCache_append (cache : List (String × List Char)) (id : String)
    (t : List Char) (h : lookupCache cache id = none) :
    lookupCache (cache ++ [(id, t)]) id = some t := by
  induction cache with
  | nil => simp [lookupCache]
  | cons p rest ih =>
    obtain ⟨k, v⟩ := p
    by_cases hk : k = id
    · simp [lookupCache, hk] at h
    · rw [lookupCache, if_neg hk] at h
      simpa [lookupCache, hk] using ih h

/-- Claim C7: a successful decode is memoized — the first `resolve` on an
uncached id performs exactly one decode, stores the text, and a second
`resolve` returns the same cached text with zero further decodes (one decode
in total); a failed decode returns `none`, leaves the cache unchanged and is
not memoized, so the call (and therefore any identical subsequent call on
the unchanged state) performs the decode attempt again. -/
theorem claim_C7 (decode : String → Option (List Char)) (st : AdapterState)
    (id : String) (t : List Char) :
    (lookupCache st.cache id = none → decode id = some t →
      resolve decode st id = (some t, ⟨st.cache ++ [(id, t)]⟩, 1) ∧
      resolve decode ⟨st.cache ++ [(id, t)]⟩ id =
        (some t, ⟨st.cache ++ [(id, t)]⟩, 0)) ∧
    (lookupCache st.cache id = none → decode id = none →
      resolve decode st id = (none, st, 1)) := by
  constructor
  · intro hmiss hdec
    constructor
    · rw [resolve, hmiss, hdec]
    · rw [resolve, lookupCache_append st.cache id t hmiss]
  · intro hmiss hdec
    rw [resolve, hmiss, hdec]

/-- Witness for C7: an empty cache, a decoder returning `"x"` for every id,
and a decoder failing for every id. -/
theorem claim_C7_witness :
    (resolve (fun _ => some ['x']) ⟨[]⟩ "doc" =
      (some ['x'], ⟨[("doc", ['x'])]⟩, 1) ∧
     resolve (fun _ => some ['x']) ⟨[("doc", ['x'])]⟩ "doc" =
      (some ['x'], ⟨[("doc", ['x'])]⟩, 0)) ∧
    resolve (fun _ => none) ⟨[]⟩ "doc" = (none, ⟨[]⟩, 1) :=
  ⟨(claim_C7 (fun _ => some ['x']) ⟨[]⟩ "doc" ['x']).1 rfl rfl,
   (claim_C7 (fun _ => none) ⟨[]⟩ "doc" []).2 rfl rfl⟩

end SOP

namespace SOP

/-- A failed `resolve` is the triple `(none, unchanged state, one decode)`. -/
theorem resolve_none (decode : String → Option (List Char)) (st : AdapterState)
    (id : String) (h : (resolve decode st id).1 = none) :
    resolve decode st id = (none, st, 1) := by
  cases hl : lookupCache st.cache id with
  | some v => simp [resolve, hl] at h
  | none =>
    cases hd : decode id with
    | some v => simp [resolve, hl, hd] at h
    | none => simp [resolve, hl, hd]

/-- After a successful `resolve`, resolving again on the resulting state is
a pure cache hit returning the same text. -/
theorem resolve_stable (decode : String → Option (List Char)) (st : AdapterState)
    (id : String) (t : List Char) (h : (resolve decode st id).1 = some t) :
    resolve decode ((resolve decode st id).2.1) id =
      (some t, (resolve decode st id).2.1, 0) := by
  cases hl : lookupCache st.cache id with
  | some v =>
    have hr : resolve decode st id = (some v, st, 0) := by simp [resolve, hl]
    rw [hr] at h
    simp only [Option.some.injEq] at h
    subst h
    rw [hr]
    simp [resolve, hl]
  | none =>
    cases hd : decode id with
    | none => simp [resolve, hl, hd] at h
    | some v =>
      have hr : resolve decode st id = (some v, ⟨st.cache ++ [(id, v)]⟩, 1) := by
        simp [resolve, hl, hd]
      rw [hr] at h
      simp only [Option.some.injEq] at h
      subst h
      rw [hr]
      simp [resolve, lookupCache_append _ _ _ hl]

end SOP

namespace SOP

/-- Claim C8, as stated, is false: with a decoder that succeeds but yields
the empty text, the document resolves and decodes and the classifier
retains zero candidates, yet `get_sections` answers NotFound (the endpoint
tests `if text:`, and the empty string is falsy). -/
theorem claim_C8_counterexample :
    (resolve (fun _ => some []) ⟨[]⟩ "doc").1 = some [] ∧
    classify (detect ([] : List Char)) = [] ∧
    (get_sections (fun _ => some []) ⟨[]⟩ "doc").1 = SectionsResult.notFound := by
  exact ⟨rfl, rfl, by decide⟩

/-- Claim C8 (amended: "decodes" strengthened to "decodes to a *nonempty*
text"): if the document resolves to a nonempty text on which the classifier
retains zero candidates, `get_sections` reports no-sections-detected with
the raw text available (never NotFound); if the document does not resolve
(or decoding fails), it reports NotFound. -/
theorem claim_C8 (decode : String → Option (List Char)) (st : AdapterState)
    (id : String) (t : List Char) :
    ((resolve decode st id).1 = some t → t ≠ [] → classify (detect t) = [] →
      (get_sections decode st id).1 = SectionsResult.noSections true) ∧
    ((resolve decode st id).1 = none →
      (get_sections decode st id).1 = SectionsResult.notFound) := by
  constructor
  · intro h1 ht hcl
    have hp : parseSections t = [] := by rw [parseSections, hcl]; rfl
    have hps : parse_sections_st decode st id = ([], (resolve decode st id).2.1) := by
      simp [parse_sections_st, h1, ht, hp]
    have hst := resolve_stable decode st id t h1
    simp [get_sections, hps, hst, ht]
  · intro h1
    have hr := resolve_none decode st id h1
    have hps : parse_sections_st decode st id = ([], st) := by
      simp [parse_sections_st, hr]
    simp [get_sections, hps, hr]

/-- Witness for the amended C8: a decoder producing a text with no heading
candidates, and a failing decoder. -/
theorem claim_C8_witness :
    (get_sections (fun _ => some "no headings here".toList) ⟨[]⟩ "doc").1 =
      SectionsResult.noSections true ∧
    (get_sections (fun _ => none) ⟨[]⟩ "doc").1 = SectionsResult.notFound :=
  ⟨(claim_C8 (fun _ => some "no headings here".toList) ⟨[]⟩ "doc"
      "no headings here".toList).1 (by decide) (by decide) (by decide),
   (claim_C8 (fun _ => none) ⟨[]⟩ "doc" []).2 (by decide)⟩

end SOP

namespace SOP

/-- The page loop yields the empty string when every page yields no text. -/
theorem pagesText_nil_of_blank (pages : List (Option (List Char)))
    (h : ∀ p ∈ pages, p = none ∨ p = some []) : pagesText pages = [] := by
  suffices hgen : ∀ acc : List Char,
      pages.foldl
        (fun acc p =>
          match p with
          | some t => if t = [] then acc else acc ++ t ++ ['\n']
          | none => acc)
        acc = acc from hgen []
  intro acc
  induction pages generalizing acc with
  | nil => rfl
  | cons p rest ih =>
    rcases h p (List.mem_cons_self _ _) with rfl | rfl
    · exact ih (fun q hq => h q (List.mem_cons_of_mem _ hq)) acc
    · simpa using ih (fun q hq => h q (List.mem_cons_of_mem _ hq)) acc

/-- Claim C10: if the document resolves, decoding succeeds, and every page
yields no text, then the extracted text is the empty string, it is stored in
the cache, `parse_sections` returns the empty list, and both the raw-text
endpoint and the sections endpoint answer NotFound despite the successful
decode. -/
theorem claim_C10 (decode : String → Option (List Char)) (st : AdapterState)
    (id : String) (pages : List (Option (List Char)))
    (hpages : ∀ p ∈ pages, p = none ∨ p = some [])
    (hmiss : lookupCache st.cache id = none)
    (hdec : decode id = some (pagesText pages)) :
    pagesText pages = [] ∧
    resolve decode st id = (some [], ⟨st.cache ++ [(id, [])]⟩, 1) ∧
    (parse_sections_st decode st id).1 = [] ∧
    (get_raw_text decode st id).1 = TextResult.notFound ∧
    (get_sections decode st id).1 = SectionsResult.notFound := by
  have hz := pagesText_nil_of_blank pages hpages
  rw [hz] at hdec
  have hr : resolve decode st id = (some [], ⟨st.cache ++ [(id, [])]⟩, 1) := by
    simp [resolve, hmiss, hdec]
  have hps : parse_sections_st decode st id = ([], ⟨st.cache ++ [(id, [])]⟩) := by
    simp [parse_sections_st, hr]
  have hst := resolve_stable decode st id [] (by rw [hr])
  rw [hr] at hst
  refine ⟨hz, hr, by rw [hps], ?_, ?_⟩
  · simp [get_raw_text, hr]
  · simp [get_sections, hps, hst]

/-- Witness for C10: two blank pages, an empty cache. -/
theorem claim_C10_witness :
    pagesText [none, some []] = [] ∧
    resolve (fun _ => some []) ⟨[]⟩ "doc" = (some [], ⟨[("doc", [])]⟩, 1) ∧
    (parse_sections_st (fun _ => some []) ⟨[]⟩ "doc").1 = [] ∧
    (get_raw_text (fun _ => some []) ⟨[]⟩ "doc").1 = TextResult.notFound ∧
    (get_sections (fun _ => some []) ⟨[]⟩ "doc").1 = SectionsResult.notFound :=
  claim_C10 (fun _ => some []) ⟨[]⟩ "doc" [none, some []]
    (by decide) rfl rfl

end SOP

namespace SOP

/-- A run starting on a character satisfying the predicate is nonempty. -/
theorem runLenFrom_pos (p : Char → Bool) (s : List Char) (i : Nat) (c : Char)
    (hc : s[i]? = some c) (hp : p c = true) : 1 ≤ runLenFrom p s i := by
  obtain ⟨hlt, hget⟩ := List.getElem?_eq_some.mp hc
  rw [runLenFrom, List.drop_eq_getElem_cons hlt, List.takeWhile_cons, hget, hp]
  simp

/-- The optional `Section` prefix only moves forward. -/
theorem sectionSkip_ge (s : List Char) (i : Nat) : i ≤ sectionSkip s i := by
  simp only [sectionSkip]
  split
  · split <;> omega
  · omega

/-- A digit at `i` makes the digit run from `i` nonempty. -/
theorem digitRun_pos (s : List Char) (j : Nat) (h : isDigitAt s j = true) :
    1 ≤ runLenFrom Char.isDigit s j := by
  rw [isDigitAt] at h
  cases hj : s[j]? with
  | none =>
    rw [hj] at h
    exact Bool.noConfusion h
  | some c =>
    simp only [hj] at h
    exact runLenFrom_pos Char.isDigit s j c hj h

/-- The star of `(?:\.\d+)*` moves forward, and its last-repetition start is
at or after the scan start. -/
theorem starScan_ge (s : List Char) (fuel p : Nat) :
    p ≤ (starScan s fuel p).1 ∧
    ∀ q : Nat, (starScan s fuel p).2 = some q → p ≤ q := by
  induction fuel generalizing p with
  | zero => exact ⟨Nat.le_refl p, by simp [starScan]⟩
  | succ fuel ih =>
    rw [starScan]
    split
    · have ihs := ih (p + 1 + runLenFrom Char.isDigit s (p + 1))
      refine ⟨?_, fun q hq => ?_⟩
      · show p ≤ (starScan s fuel (p + 1 + runLenFrom Char.isDigit s (p + 1))).1
        omega
      · replace hq :
            some ((starScan s fuel (p + 1 + runLenFrom Char.isDigit s (p + 1))).2.getD p) =
              some q := hq
        simp only [Option.some.injEq] at hq
        cases hlast : (starScan s fuel (p + 1 + runLenFrom Char.isDigit s (p + 1))).2 with
        | none => rw [hlast] at hq; simp at hq; omega
        | some q' =>
          rw [hlast] at hq
          simp at hq
          have := ihs.2 q' hlast
          omega
    · exact ⟨Nat.le_refl p, by simp⟩

/-- A successful `\s*(.+?)$` backtrack: the title starts at or after the
whitespace scan start, inside the text, and is nonempty. -/
theorem btTitle_spec (s : List Char) (q : Nat) (k : Nat) (r e : Nat)
    (h : btTitle s q k = some (r, e)) : q ≤ r ∧ r < s.length ∧ r < e := by
  induction k with
  | zero =>
    rw [btTitle] at h
    cases hq : s[q]? with
    | none =>
      simp only [hq] at h
      exact Option.noConfusion h
    | some c =>
      simp only [hq] at h
      by_cases hc : c = '\n'
      · rw [if_pos hc] at h; simp at h
      · rw [if_neg hc] at h
        simp only [Option.some.injEq, Prod.mk.injEq] at h
        obtain ⟨rfl, rfl⟩ := h
        refine ⟨by omega, (List.getElem?_eq_some.mp hq).1, ?_⟩
        have := runLenFrom_pos (fun c => c != '\n') s q c hq (by simpa using hc)
        rw [lineEndFrom]
        omega
  | succ k ih =>
    rw [btTitle] at h
    cases hq : s[q + (k + 1)]? with
    | none =>
      simp only [hq] at h
      have := ih h
      omega
    | some c =>
      simp only [hq] at h
      by_cases hc : c = '\n'
      · rw [if_pos hc] at h
        have := ih h
        omega
      · rw [if_neg hc] at h
        simp only [Option.some.injEq, Prod.mk.injEq] at h
        obtain ⟨rfl, rfl⟩ := h
        refine ⟨by omega, (List.getElem?_eq_some.mp hq).1, ?_⟩
        have := runLenFrom_pos (fun c => c != '\n') s (q + (k + 1)) c hq (by simpa using hc)
        rw [lineEndFrom]
        omega

/-- A successful separator-and-title tail starts past the separator and has
a nonempty title. -/
theorem tailAt_spec (s : List Char) (p : Nat) (r e : Nat)
    (h : tailAt s p = some (r, e)) : p + 1 ≤ r ∧ r < e := by
  rw [tailAt] at h
  cases hp : s[p]? with
  | none =>
    simp only [hp] at h
    exact Option.noConfusion h
  | some c =>
    simp only [hp] at h
    by_cases hc : (c = '.' || c = ':' || pyIsWs c) = true
    · rw [if_pos hc] at h
      have := btTitle_spec s (p + 1) (runLenFrom pyIsWs s (p + 1)) r e h
      exact ⟨this.1, this.2.2⟩
    · rw [if_neg hc] at h
      simp at h

end SOP

namespace SOP

/-- A match produced at `^`-position `i` starts at `i` and ends strictly
after it. -/
theorem matchAt_spec (s : List Char) (i : Nat) (m : RMatch)
    (h : matchAt s i = some m) : m.mstart = i ∧ i < m.titleEnd := by
  have hskip := sectionSkip_ge s i
  simp only [matchAt] at h
  split at h
  · next hd =>
    have hrun := digitRun_pos s (sectionSkip s i) hd
    have hstar := starScan_ge s (s.length + 1)
      (sectionSkip s i + runLenFrom Char.isDigit s (sectionSkip s i))
    split at h
    · next ts te heq =>
      simp only [Option.some.injEq] at h
      subst h
      have htail := tailAt_spec s _ ts te heq
      refine ⟨rfl, ?_⟩
      simp only
      omega
    · split at h
      · next pr heq2 =>
        rw [Option.map_eq_some'] at h
        obtain ⟨⟨ts, te⟩, htl, rfl⟩ := h
        have hpr := hstar.2 pr heq2
        have htail := tailAt_spec s pr ts te htl
        refine ⟨rfl, ?_⟩
        simp only
        omega
      · exact Option.noConfusion h
  · exact Option.noConfusion h

/-- Every match emitted by the scan loop starts at or after the scan
position. -/
theorem findAllGo_start_ge (s : List Char) (ls : List Nat) (pos : Nat) :
    ∀ m ∈ findAllGo s ls pos, pos ≤ m.mstart := by
  induction ls generalizing pos with
  | nil => simp [findAllGo]
  | cons i rest ih =>
    intro m hm
    rw [findAllGo] at hm
    split at hm
    · exact ih pos m hm
    · next hge =>
      split at hm
      · next m' heq =>
        have hspec := matchAt_spec s i m' heq
        rcases List.mem_cons.mp hm with rfl | hm'
        · omega
        · have := ih m'.titleEnd m hm'
          omega
      · exact ih pos m hm

/-- The matches emitted by the scan loop have strictly increasing starts. -/
theorem findAllGo_pairwise (s : List Char) (ls : List Nat) (pos : Nat) :
    List.Pairwise (fun a b => a.mstart < b.mstart) (findAllGo s ls pos) := by
  induction ls generalizing pos with
  | nil => simp [findAllGo]
  | cons i rest ih =>
    rw [findAllGo]
    split
    · exact ih pos
    · next hge =>
      split
      · next m heq =>
        refine List.Pairwise.cons (fun b hb => ?_) (ih m.titleEnd)
        have hspec := matchAt_spec s i m heq
        have hb' := findAllGo_start_ge s rest m.titleEnd b hb
        omega
      · exact ih pos

/-- Claim C9: the detector's candidates appear in strictly increasing text
order; the classifier preserves this (its output is a sublist); and the
final section list pairs up index-wise with the retained boundaries (same
length, same number and title at every index), i.e. sections are produced
in boundary order, with every later boundary's start offset strictly larger
than each earlier one's. -/
theorem claim_C9 (text : List Char) :
    List.Pairwise (· < ·) ((detect text).map Candidate.mstart) ∧
    List.Pairwise (· < ·) ((classify (detect text)).map Candidate.mstart) ∧
    (parseSections text).length = (classify (detect text)).length ∧
    ∀ i : Nat,
      ((parseSections text)[i]?).map (fun sec => (sec.section_number, sec.title)) =
        ((classify (detect text))[i]?).map (fun c => (c.number, c.title)) := by
  have hdet : List.Pairwise (· < ·) ((detect text).map Candidate.mstart) := by
    rw [detect, findAll, List.map_map, List.pairwise_map]
    exact findAllGo_pairwise text (lineStarts text) 0
  have hsub : ((classify (detect text)).map Candidate.mstart).Sublist
      ((detect text).map Candidate.mstart) :=
    (List.filter_sublist (detect text)).map Candidate.mstart
  refine ⟨hdet, hdet.sublist hsub, buildSections_length text _, fun i => ?_⟩
  rw [parseSections, buildSections_getElem?, Option.map_map]
  cases (classify (detect text))[i]? <;> rfl

end SOP
